import Mathlib

/-!
A shallow embedding of `src/storage/createStore.ts`, the namespaced
chrome-storage facade of this repository, together with theorems about its
operations.

Modelling conventions:

* A JavaScript object whose values may be `undefined` is a
  `List (String × Option V)` (`none` plays the role of `undefined`); property
  access on a missing property also yields `undefined`, which `jsIndex`
  reflects.  Property assignment is `updKey` (update-in-place the first
  occurrence, else append, matching JS insertion-order semantics).
* The data held by one `chrome.storage` area is a `List (String × V)`:
  the host never stores `undefined`.  Per the host's JSON-serialisation
  contract, a `set` call ignores properties whose value is `undefined`
  (it neither stores nor removes such a key); `hostSet` reflects this.
* Each store operation is a function of the store configuration, the
  encryption collaborator, a fault-injection record (whether host calls
  reject), the `hasInitialized` flag and the host state; it returns the
  operation's result (`Except`), the new flag, the new host state and the
  trace of host calls it issued.  A rejected host call is modelled as
  leaving the host state unchanged.
* The `Security` collaborator is abstract: `encrypt`/`decrypt` are
  arbitrary fallible functions on possibly-`undefined` values.
-/

namespace ChromeStore

/-- JavaScript-style primitive values used to run the model on concrete
inputs. -/
inductive JsVal where
  | str : String → JsVal
  | num : Int → JsVal
  | boolVal : Bool → JsVal
deriving DecidableEq

/-- A JavaScript object: ordered properties whose values may be
`undefined` (`none`). -/
abbrev Obj (V : Type) := List (String × Option V)

/-- The contents of one `chrome.storage` area: stored values are never
`undefined`. -/
abbrev HostData (V : Type) := List (String × V)

variable {V E α : Type}

/-- Lookup of the first binding of a key in an association list (JS property
read on an object without duplicate keys). -/
def olookup : List (String × α) → String → Option α
  | [], _ => none
  | (k', v) :: rest, k => if k' = k then some v else olookup rest k

/-- JS property access on an object with possibly-`undefined` values:
a missing property and a property holding `undefined` both read as
`undefined`. -/
def jsIndex (o : Obj V) (k : String) : Option V :=
  (olookup o k).getD none

/-- JS property assignment: overwrite the first binding of the key in place,
or append a new binding. -/
def updKey : List (String × α) → String → α → List (String × α)
  | [], k, v => [(k, v)]
  | (k', v') :: rest, k, v =>
    if k' = k then (k, v) :: rest else (k', v') :: updKey rest k v

/-- `chrome.storage[area].get(keys)`: an object holding the requested keys
that are present, in request order. -/
def hostGet (h : HostData V) : List String → HostData V
  | [] => []
  | k :: rest =>
    match olookup h k with
    | some v => (k, v) :: hostGet h rest
    | none => hostGet h rest

/-- `chrome.storage[area].set(entries)`: stores each defined value in order;
properties whose value is `undefined` are ignored by the host. -/
def hostSet (h : HostData V) : Obj V → HostData V
  | [] => h
  | (k, some v) :: rest => hostSet (updKey h k v) rest
  | (_, none) :: rest => hostSet h rest

/-- `chrome.storage[area].remove(keys)`: deletes every binding whose key is
listed. -/
def hostRemove (h : HostData V) (ks : List String) : HostData V :=
  match h with
  | [] => []
  | (k, v) :: rest =>
    if k ∈ ks then hostRemove rest ks else (k, v) :: hostRemove rest ks

/-- One host-storage call issued by a store operation, with the area it
addresses and the keys/entries it carries. -/
inductive HostCall (V : Type) where
  | get : String → List String → HostCall V
  | set : String → Obj V → HostCall V
  | remove : String → List String → HostCall V
deriving DecidableEq

/-- The keys a host call touches. -/
def callKeys : HostCall V → List String
  | .get _ ks => ks
  | .set _ entries => entries.map (fun p => p.1)
  | .remove _ ks => ks

/-- The model of the `Security` collaborator: asynchronous, fallible
`encrypt`/`decrypt` on possibly-`undefined` values. -/
structure SecurityModel (V E : Type) where
  encrypt : Option V → Except E (Option V)
  decrypt : Option V → Except E (Option V)

/-- Fault injection for host calls: when a component is `some e`, every host
call of that kind rejects with `e`. -/
structure Faults (E : Type) where
  getErr : Option E
  setErr : Option E
  removeErr : Option E

/-- All host calls succeed. -/
def noFaults : Faults E := ⟨none, none, none⟩

/-- The configuration fixed when `createStore` runs: store id, the defaults
object, the storage area and the `isEncrypted` flag. -/
structure StoreCfg (V : Type) where
  storeId : String
  defaults : Obj V
  area : String
  isEncrypted : Bool

/-- `Object.keys(defaults)`: the logical key names of the store. -/
def storeKeys (cfg : StoreCfg V) : List String :=
  cfg.defaults.map (fun p => p.1)

/-- The actual key written to host storage for a logical key. -/
def actualKey (cfg : StoreCfg V) (k : String) : String :=
  cfg.storeId ++ ":" ++ k

/-- `keys.map(key => storeId + ":" + key)`. -/
def actualKeys (cfg : StoreCfg V) : List String :=
  (storeKeys cfg).map (actualKey cfg)

/-- Construction-time configuration error. -/
inductive CfgError where
  | missingPassword
deriving DecidableEq

/-- `createStore`: checks the encryption secret synchronously and builds the
store configuration.  The second component is the trace of host calls made
during construction; the source makes none. -/
def createStore (V : Type) (storeId : String) (defaults : Obj V) (area : String)
    (optEncrypted : Option Bool) (passwordPresent : Bool) :
    Except CfgError (StoreCfg V) × List (HostCall V) :=
  let isEncrypted := optEncrypted.getD false
  if isEncrypted && !passwordPresent then
    (Except.error CfgError.missingPassword, [])
  else
    (Except.ok ⟨storeId, defaults, area, isEncrypted⟩, [])

/-- The outcome of one store operation: its result, the `hasInitialized`
flag, the host state and the trace of host calls issued. -/
structure OpResult (V E α : Type) where
  res : Except E α
  inited : Bool
  host : HostData V
  trace : List (HostCall V)

/-- Whether an `Except` is a success. -/
def exOk : Except E α → Bool
  | .ok _ => true
  | .error _ => false

/-- The value seeded for one missing actual key:
`isEncrypted ? await security.encrypt(defaults[key]) : defaults[key]`.
Note the source indexes `defaults` with the *actual* (prefixed) key. -/
def defaultVal (cfg : StoreCfg V) (sec : SecurityModel V E) (k : String) :
    Except E (Option V) :=
  if cfg.isEncrypted then sec.encrypt (jsIndex cfg.defaults k)
  else Except.ok (jsIndex cfg.defaults k)

/-- The `for (const key of missingKeys)` loop building `defaultsToSet`. -/
def buildDefaultsToSet (cfg : StoreCfg V) (sec : SecurityModel V E) :
    List String → Obj V → Except E (Obj V)
  | [], acc => Except.ok acc
  | k :: rest, acc =>
    match defaultVal cfg sec k with
    | .error e => Except.error e
    | .ok v => buildDefaultsToSet cfg sec rest (updKey acc k v)

/-- `const missingKeys = actualKeys.filter(key => data[key] === undefined)`
where `data` is the batched read of all actual keys. -/
def missingKeys (cfg : StoreCfg V) (h : HostData V) : List String :=
  (actualKeys cfg).filter
    (fun k => (olookup (hostGet h (actualKeys cfg)) k).isNone)

/-- `store.initialize`: one batched read of all actual keys, seeding of the
missing ones, and only then `hasInitialized = true`. -/
def initOp (cfg : StoreCfg V) (sec : SecurityModel V E) (f : Faults E)
    (inited : Bool) (h : HostData V) : OpResult V E Unit :=
  match f.getErr with
  | some e => ⟨Except.error e, inited, h, [HostCall.get cfg.area (actualKeys cfg)]⟩
  | none =>
    let missing := missingKeys cfg h
    if missing.isEmpty then
      ⟨Except.ok (), true, h, [HostCall.get cfg.area (actualKeys cfg)]⟩
    else
      match buildDefaultsToSet cfg sec missing [] with
      | .error e => ⟨Except.error e, inited, h, [HostCall.get cfg.area (actualKeys cfg)]⟩
      | .ok toSet =>
        match f.setErr with
        | some e =>
          ⟨Except.error e, inited, h,
            [HostCall.get cfg.area (actualKeys cfg), HostCall.set cfg.area toSet]⟩
        | none =>
          ⟨Except.ok (), true, hostSet h toSet,
            [HostCall.get cfg.area (actualKeys cfg), HostCall.set cfg.area toSet]⟩

/-- The `if (!hasInitialized) await store.initialize()` guard shared by
`get`, `set` and `all`. -/
def ensureInit (cfg : StoreCfg V) (sec : SecurityModel V E) (f : Faults E)
    (inited : Bool) (h : HostData V) : OpResult V E Unit :=
  if inited then ⟨Except.ok (), inited, h, []⟩ else initOp cfg sec f inited h

/-- `store.get(key)`. -/
def getOp (cfg : StoreCfg V) (sec : SecurityModel V E) (f : Faults E)
    (inited : Bool) (h : HostData V) (k : String) : OpResult V E (Option V) :=
  let s := ensureInit cfg sec f inited h
  match s.res with
  | .error e => ⟨Except.error e, s.inited, s.host, s.trace⟩
  | .ok _ =>
    let ak := actualKey cfg k
    match f.getErr with
    | some e => ⟨Except.error e, s.inited, s.host, s.trace ++ [HostCall.get cfg.area [ak]]⟩
    | none =>
      let value := olookup (hostGet s.host [ak]) ak
      if cfg.isEncrypted then
        match sec.decrypt value with
        | .error e => ⟨Except.error e, s.inited, s.host, s.trace ++ [HostCall.get cfg.area [ak]]⟩
        | .ok w => ⟨Except.ok w, s.inited, s.host, s.trace ++ [HostCall.get cfg.area [ak]]⟩
      else
        ⟨Except.ok value, s.inited, s.host, s.trace ++ [HostCall.get cfg.area [ak]]⟩

/-- `store.set(key, value)` (single-key form): `undefined` (`none`) removes
the actual key, any other value is (optionally encrypted and) written. -/
def setKeyOp (cfg : StoreCfg V) (sec : SecurityModel V E) (f : Faults E)
    (inited : Bool) (h : HostData V) (k : String) (v : Option V) :
    OpResult V E Unit :=
  let s := ensureInit cfg sec f inited h
  match s.res with
  | .error e => ⟨Except.error e, s.inited, s.host, s.trace⟩
  | .ok _ =>
    let ak := actualKey cfg k
    match v with
    | none =>
      match f.removeErr with
      | some e => ⟨Except.error e, s.inited, s.host, s.trace ++ [HostCall.remove cfg.area [ak]]⟩
      | none =>
        ⟨Except.ok (), s.inited, hostRemove s.host [ak],
          s.trace ++ [HostCall.remove cfg.area [ak]]⟩
    | some v' =>
      match (if cfg.isEncrypted then sec.encrypt (some v') else Except.ok (some v')) with
      | .error e => ⟨Except.error e, s.inited, s.host, s.trace⟩
      | .ok w =>
        match f.setErr with
        | some e => ⟨Except.error e, s.inited, s.host, s.trace ++ [HostCall.set cfg.area [(ak, w)]]⟩
        | none =>
          ⟨Except.ok (), s.inited, hostSet s.host [(ak, w)],
            s.trace ++ [HostCall.set cfg.area [(ak, w)]]⟩

/-- The loop of the bulk form of `set`, partitioning the argument object into
`entriesToRemove` (values that are `undefined`) and `entriesToSet` (all
others, optionally encrypted). -/
def buildBulk (cfg : StoreCfg V) (sec : SecurityModel V E) :
    Obj V → List String → Obj V → Except E (List String × Obj V)
  | [], rems, toSet => Except.ok (rems, toSet)
  | (k, none) :: rest, rems, toSet =>
    buildBulk cfg sec rest (rems ++ [actualKey cfg k]) toSet
  | (k, some v) :: rest, rems, toSet =>
    match (if cfg.isEncrypted then sec.encrypt (some v) else Except.ok (some v)) with
    | .error e => Except.error e
    | .ok w => buildBulk cfg sec rest rems (updKey toSet (actualKey cfg k) w)

/-- The batched `set` phase of the bulk form: issued only when
`entriesToSet` is non-empty. -/
def bulkSetPhase (cfg : StoreCfg V) (f : Faults E) (toSet : Obj V)
    (inited : Bool) (h : HostData V) (tr : List (HostCall V)) : OpResult V E Unit :=
  if toSet.isEmpty then ⟨Except.ok (), inited, h, tr⟩
  else
    match f.setErr with
    | some e => ⟨Except.error e, inited, h, tr ++ [HostCall.set cfg.area toSet]⟩
    | none => ⟨Except.ok (), inited, hostSet h toSet, tr ++ [HostCall.set cfg.area toSet]⟩

/-- The batched `remove` phase followed by the `set` phase of the bulk form:
the `remove` is issued first, and only when `entriesToRemove` is
non-empty. -/
def bulkPhases (cfg : StoreCfg V) (f : Faults E) (rems : List String) (toSet : Obj V)
    (inited : Bool) (h : HostData V) (tr : List (HostCall V)) : OpResult V E Unit :=
  if rems.isEmpty then bulkSetPhase cfg f toSet inited h tr
  else
    match f.removeErr with
    | some e => ⟨Except.error e, inited, h, tr ++ [HostCall.remove cfg.area rems]⟩
    | none =>
      bulkSetPhase cfg f toSet inited (hostRemove h rems)
        (tr ++ [HostCall.remove cfg.area rems])

/-- `store.set(values)` (bulk form). -/
def setBulkOp (cfg : StoreCfg V) (sec : SecurityModel V E) (f : Faults E)
    (inited : Bool) (h : HostData V) (m : Obj V) : OpResult V E Unit :=
  let s := ensureInit cfg sec f inited h
  match s.res with
  | .error e => ⟨Except.error e, s.inited, s.host, s.trace⟩
  | .ok _ =>
    match buildBulk cfg sec m [] [] with
    | .error e => ⟨Except.error e, s.inited, s.host, s.trace⟩
    | .ok (rems, toSet) => bulkPhases cfg f rems toSet s.inited s.host s.trace

/-- The concurrent decryption loop of `store.all`: every
`fullStore[actualKey]` is read before any `fullStore[key]` is assigned
(all the synchronous prefixes of the `Promise.all` closures run first). -/
def decryptReads (sec : SecurityModel V E) (cfg : StoreCfg V) (fs : Obj V) :
    List String → Except E (Obj V)
  | [] => Except.ok []
  | k :: rest =>
    match sec.decrypt (jsIndex fs (actualKey cfg k)) with
    | .error e => Except.error e
    | .ok w =>
      match decryptReads sec cfg fs rest with
      | .error e => Except.error e
      | .ok tail => Except.ok ((k, w) :: tail)

/-- Applying the assignments `fullStore[key] = decryptedValue`. -/
def applyWrites (fs : Obj V) : Obj V → Obj V
  | [] => fs
  | (k, w) :: rest => applyWrites (updKey fs k w) rest

/-- `store.all`: ensures the store has initialized, performs one batched
read of all actual keys, and in the encrypted case additionally assigns a
decrypted value under each logical key (the raw actual-key properties are
kept). -/
def allOp (cfg : StoreCfg V) (sec : SecurityModel V E) (f : Faults E)
    (inited : Bool) (h : HostData V) : OpResult V E (Obj V) :=
  let s := ensureInit cfg sec f inited h
  match s.res with
  | .error e => ⟨Except.error e, s.inited, s.host, s.trace⟩
  | .ok _ =>
    match f.getErr with
    | some e => ⟨Except.error e, s.inited, s.host, s.trace ++ [HostCall.get cfg.area (actualKeys cfg)]⟩
    | none =>
      let fullStore : Obj V :=
        (hostGet s.host (actualKeys cfg)).map (fun p => (p.1, some p.2))
      let tr := s.trace ++ [HostCall.get cfg.area (actualKeys cfg)]
      if cfg.isEncrypted then
        match decryptReads sec cfg fullStore (storeKeys cfg) with
        | .error e => ⟨Except.error e, s.inited, s.host, tr⟩
        | .ok writes => ⟨Except.ok (applyWrites fullStore writes), s.inited, s.host, tr⟩
      else
        ⟨Except.ok fullStore, s.inited, s.host, tr⟩

/-- `store.keys()`. -/
def keysOp (cfg : StoreCfg V) : List String :=
  storeKeys cfg

/-- A change record delivered by the host for one actual key. -/
structure ValChange (V : Type) where
  oldValue : Option V
  newValue : Option V
deriving DecidableEq

/-- The behaviour of the listener closure created by `store.subscribe` on one
incoming event: `Except.ok none` means the caller's callback is not invoked
(the event was filtered out), `Except.ok (some c)` means it is invoked with
`c`, and `Except.error e` means a decryption rejection propagated. -/
def subEvent (cfg : StoreCfg V) (sec : SecurityModel V E) (k : String)
    (changes : List (String × ValChange V)) (areaName : String) :
    Except E (Option (ValChange V)) :=
  let ak := actualKey cfg k
  if areaName ≠ cfg.area then Except.ok none
  else
    match olookup changes ak with
    | none => Except.ok none
    | some ch =>
      if cfg.isEncrypted then
        match sec.decrypt ch.oldValue with
        | .error e => Except.error e
        | .ok o =>
          match sec.decrypt ch.newValue with
          | .error e => Except.error e
          | .ok n => Except.ok (some ⟨o, n⟩)
      else Except.ok (some ⟨ch.oldValue, ch.newValue⟩)

/-- The host's global change-listener registry.  Listener functions are
identified by allocation ids; `nextId` is the next fresh identity, so every
function created earlier (including any caller-held callback) has an id
below `nextId`. -/
structure Listeners where
  registered : List Nat
  nextId : Nat

/-- `chrome.storage.onChanged.addListener`: registers a listener; adding an
already-registered listener is a no-op. -/
def addListener (st : Listeners) (l : Nat) : Listeners :=
  if l ∈ st.registered then st else ⟨st.registered ++ [l], st.nextId⟩

/-- `chrome.storage.onChanged.removeListener`: removes a listener if it is
registered, otherwise does nothing (it never throws). -/
def removeListener (st : Listeners) (l : Nat) : Listeners :=
  ⟨st.registered.filter (fun x => x ≠ l), st.nextId⟩

/-- `store.subscribe`: creates a fresh wrapper listener `sub`, registers it,
and returns it (not the caller's original callback). -/
def subscribeOp (st : Listeners) : Nat × Listeners :=
  let sub := st.nextId
  (sub, addListener ⟨st.registered, st.nextId + 1⟩ sub)

/-- `store.unsubscribe`. -/
def unsubscribeOp (st : Listeners) (l : Nat) : Listeners :=
  removeListener st l

/-- A key is in the store's wire-format key set when it is the actual key of
one of the logical keys fixed at construction. -/
def goodKey (cfg : StoreCfg V) (s : String) : Prop :=
  ∃ lk ∈ storeKeys cfg, s = actualKey cfg lk

/-- Every host call of a trace touches only keys of the form
`storeId:logicalKey` for declared logical keys. -/
def traceGood (cfg : StoreCfg V) (tr : List (HostCall V)) : Prop :=
  ∀ c ∈ tr, ∀ s ∈ callKeys c, goodKey cfg s

/-- An encryption collaborator that passes values through unchanged; used to
run unencrypted stores on concrete inputs. -/
def idSec : SecurityModel JsVal Unit :=
  ⟨fun x => Except.ok x, fun x => Except.ok x⟩

/-- The unencrypted example store of the specification: id `prefs`, defaults
`\x7btheme: "light", volume: 50\x7d`, area `local`. -/
def cfgPrefs : StoreCfg JsVal :=
  ⟨"prefs", [("theme", some (JsVal.str "light")), ("volume", some (JsVal.num 50))], "local", false⟩

/-- A concrete encryption collaborator over `Nat` values satisfying the
round-trip law: `encrypt` adds one to the payload, `decrypt` undoes it. -/
def natSec : SecurityModel Nat Unit :=
  ⟨fun x => Except.ok (some (x.getD 0 + 1)),
   fun x =>
     match x with
     | some (n + 1) => Except.ok (some n)
     | _ => Except.ok none⟩

/-- A concrete encrypted store configuration over `Nat` values. -/
def cfgSecret : StoreCfg Nat :=
  ⟨"sec", [("token", some 1)], "local", true⟩

/-- A fault record whose host reads reject. -/
def getFault : Faults String :=
  ⟨some "boom", none, none⟩

/-- A pass-through encryption collaborator with `String` errors. -/
def idSecStr : SecurityModel JsVal String :=
  ⟨fun x => Except.ok x, fun x => Except.ok x⟩


/-! ### Association-list and host-primitive lemmas -/

theorem olookup_updKey_self (o : List (String × α)) (k : String) (v : α) :
    olookup (updKey o k v) k = some v := by
  induction o with
  | nil => simp [updKey, olookup]
  | cons p rest ih =>
    obtain ⟨k', v'⟩ := p
    by_cases hk : k' = k
    · simp [updKey, hk, olookup]
    · simp [updKey, hk, olookup, ih]

theorem olookup_updKey_ne (o : List (String × α)) (k k' : String) (v : α)
    (h : k' ≠ k) : olookup (updKey o k v) k' = olookup o k' := by
  induction o with
  | nil =>
    simp only [updKey, olookup]
    rw [if_neg (Ne.symm h)]
  | cons p rest ih =>
    obtain ⟨k'', v''⟩ := p
    by_cases hk : k'' = k
    · subst hk
      simp only [updKey, if_pos rfl, olookup, if_neg (Ne.symm h)]
    · simp only [updKey, if_neg hk, olookup]
      by_cases hk2 : k'' = k'
      · simp [if_pos hk2]
      · simp [if_neg hk2, ih]

theorem mem_updKey (o : List (String × α)) (k : String) (v : α) (p : String × α)
    (hp : p ∈ updKey o k v) : p ∈ o ∨ p = (k, v) := by
  induction o with
  | nil => simpa [updKey] using hp
  | cons q rest ih =>
    obtain ⟨k', v'⟩ := q
    by_cases hk : k' = k
    · simp only [updKey, if_pos hk] at hp
      rcases List.mem_cons.mp hp with h | h
      · exact Or.inr h
      · exact Or.inl (List.mem_cons_of_mem _ h)
    · simp only [updKey, if_neg hk] at hp
      rcases List.mem_cons.mp hp with h | h
      · exact Or.inl (h ▸ List.mem_cons_self _ _)
      · rcases ih h with h2 | h2
        · exact Or.inl (List.mem_cons_of_mem _ h2)
        · exact Or.inr h2

theorem updKey_keys (o : List (String × α)) (k : String) (v : α) (s : String)
    (hs : s ∈ (updKey o k v).map (fun p => p.1)) :
    s ∈ o.map (fun p => p.1) ∨ s = k := by
  rcases List.mem_map.mp hs with ⟨p, hp, hps⟩
  rcases mem_updKey o k v p hp with h | h
  · exact Or.inl (hps ▸ List.mem_map_of_mem _ h)
  · subst h
    exact Or.inr hps.symm

theorem olookup_hostGet_none (h : HostData V) (ks : List String) (k : String)
    (hk : olookup h k = none) : olookup (hostGet h ks) k = none := by
  induction ks with
  | nil => simp [hostGet, olookup]
  | cons k' rest ih =>
    simp only [hostGet]
    cases hlk : olookup h k' with
    | none => simpa using ih
    | some v =>
      simp only [olookup]
      by_cases he : k' = k
      · subst he
        rw [hlk] at hk
        exact absurd hk (by simp)
      · simpa [he] using ih

theorem olookup_hostGet (h : HostData V) (ks : List String) (k : String)
    (hk : k ∈ ks) : olookup (hostGet h ks) k = olookup h k := by
  induction ks with
  | nil => cases hk
  | cons k' rest ih =>
    simp only [hostGet]
    cases hlk : olookup h k' with
    | some v =>
      simp only [olookup]
      by_cases he : k' = k
      · subst he
        simp [hlk]
      · rcases List.mem_cons.mp hk with h1 | h1
        · exact absurd h1.symm he
        · simpa [he] using ih h1
    | none =>
      by_cases he : k' = k
      · subst he
        rw [hlk]
        exact olookup_hostGet_none h rest k' hlk
      · rcases List.mem_cons.mp hk with h1 | h1
        · exact absurd h1.symm he
        · exact ih h1

theorem olookup_hostSet_untouched (h : HostData V) (o : Obj V) (k : String)
    (hk : ∀ p ∈ o, p.2.isSome → p.1 ≠ k) :
    olookup (hostSet h o) k = olookup h k := by
  induction o generalizing h with
  | nil => simp [hostSet]
  | cons p rest ih =>
    obtain ⟨k', w⟩ := p
    cases w with
    | none =>
      simp only [hostSet]
      exact ih h (fun q hq => hk q (List.mem_cons_of_mem _ hq))
    | some v =>
      simp only [hostSet]
      rw [ih (updKey h k' v) (fun q hq => hk q (List.mem_cons_of_mem _ hq))]
      exact olookup_updKey_ne h k' k v
        (fun he => hk (k', some v) (List.mem_cons_self _ _) (by simp) he.symm)

theorem hostSet_allNone (h : HostData V) (o : Obj V)
    (ha : ∀ p ∈ o, p.2 = none) : hostSet h o = h := by
  induction o with
  | nil => simp [hostSet]
  | cons p rest ih =>
    obtain ⟨k, w⟩ := p
    cases hw : w with
    | none =>
      simp only [hostSet]
      exact ih (fun q hq => ha q (List.mem_cons_of_mem _ hq))
    | some v =>
      have := ha (k, w) (List.mem_cons_self _ _)
      simp [hw] at this


theorem nodup_updKey_keys (o : List (String × α)) (k : String) (v : α)
    (h : (o.map (fun p => p.1)).Nodup) :
    ((updKey o k v).map (fun p => p.1)).Nodup := by
  induction o with
  | nil => simp [updKey]
  | cons p rest ih =>
    obtain ⟨k', v'⟩ := p
    simp only [List.map_cons, List.nodup_cons] at h
    by_cases hk : k' = k
    · subst hk
      simpa [updKey] using h
    · simp only [updKey, if_neg hk, List.map_cons, List.nodup_cons]
      refine ⟨fun hmem => ?_, ih h.2⟩
      rcases updKey_keys rest k v k' hmem with h1 | h1
      · exact h.1 h1
      · exact hk h1

theorem olookup_hostSet_some (h : HostData V) (o : Obj V) (k : String) (c : V)
    (hnd : (o.map (fun p => p.1)).Nodup) (hl : olookup o k = some (some c)) :
    olookup (hostSet h o) k = some c := by
  induction o generalizing h with
  | nil => simp [olookup] at hl
  | cons p rest ih =>
    obtain ⟨k', w'⟩ := p
    simp only [List.map_cons, List.nodup_cons] at hnd
    simp only [olookup] at hl
    by_cases hk : k' = k
    · subst hk
      rw [if_pos rfl] at hl
      have hw : w' = some c := by injection hl
      subst hw
      have hrest : ∀ q ∈ rest, q.2.isSome → q.1 ≠ k' :=
        fun q hq _ hqk => hnd.1 (hqk ▸ List.mem_map_of_mem _ hq)
      simp only [hostSet]
      rw [olookup_hostSet_untouched (updKey h k' c) rest k' hrest]
      exact olookup_updKey_self h k' c
    · rw [if_neg hk] at hl
      cases w' with
      | some c' =>
        simp only [hostSet]
        exact ih (updKey h k' c') hnd.2 hl
      | none =>
        simp only [hostSet]
        exact ih h hnd.2 hl

theorem olookup_hostSet_noneVal (h : HostData V) (o : Obj V) (k : String)
    (hnd : (o.map (fun p => p.1)).Nodup) (hl : olookup o k = some none) :
    olookup (hostSet h o) k = olookup h k := by
  induction o generalizing h with
  | nil => simp [olookup] at hl
  | cons p rest ih =>
    obtain ⟨k', w'⟩ := p
    simp only [List.map_cons, List.nodup_cons] at hnd
    simp only [olookup] at hl
    by_cases hk : k' = k
    · subst hk
      rw [if_pos rfl] at hl
      have hw : w' = none := by injection hl
      subst hw
      have hrest : ∀ q ∈ rest, q.2.isSome → q.1 ≠ k' :=
        fun q hq _ hqk => hnd.1 (hqk ▸ List.mem_map_of_mem _ hq)
      simp only [hostSet]
      exact olookup_hostSet_untouched h rest k' hrest
    · rw [if_neg hk] at hl
      cases w' with
      | some c' =>
        simp only [hostSet]
        rw [ih (updKey h k' c') hnd.2 hl]
        exact olookup_updKey_ne h k' k c' (fun he => hk he.symm)
      | none =>
        simp only [hostSet]
        exact ih h hnd.2 hl

theorem olookup_hostRemove_mem (h : HostData V) (ks : List String) (k : String)
    (hk : k ∈ ks) : olookup (hostRemove h ks) k = none := by
  induction h with
  | nil => simp [hostRemove, olookup]
  | cons p rest ih =>
    obtain ⟨k', v⟩ := p
    simp only [hostRemove]
    by_cases hin : k' ∈ ks
    · simpa [hin] using ih
    · simp only [if_neg hin, olookup]
      by_cases he : k' = k
      · subst he
        exact absurd hk hin
      · simpa [he] using ih

theorem olookup_hostRemove_not_mem (h : HostData V) (ks : List String) (k : String)
    (hk : k ∉ ks) : olookup (hostRemove h ks) k = olookup h k := by
  induction h with
  | nil => simp [hostRemove]
  | cons p rest ih =>
    obtain ⟨k', v⟩ := p
    simp only [hostRemove]
    by_cases hin : k' ∈ ks
    · have hne : ¬ k' = k := fun he => hk (he ▸ hin)
      rw [if_pos hin, ih, olookup, if_neg hne]
    · simp only [if_neg hin, olookup]
      by_cases he : k' = k
      · simp [he]
      · simp [he, ih]

/-! ### Lemmas about the defaults-seeding loop -/

theorem buildDefaultsToSet_mem (cfg : StoreCfg V) (sec : SecurityModel V E)
    (L : List String) :
    ∀ acc t, buildDefaultsToSet cfg sec L acc = Except.ok t →
      ∀ p ∈ t, p.1 ∈ L ∨ p ∈ acc := by
  induction L with
  | nil =>
    intro acc t hb p hp
    simp only [buildDefaultsToSet] at hb
    injection hb with hb
    subst hb
    exact Or.inr hp
  | cons k rest ih =>
    intro acc t hb p hp
    rcases hd : defaultVal cfg sec k with e | w
    · simp only [buildDefaultsToSet, hd] at hb
      exact Except.noConfusion hb
    · simp only [buildDefaultsToSet, hd] at hb
      rcases ih (updKey acc k w) t hb p hp with h1 | h1
      · exact Or.inl (List.mem_cons_of_mem _ h1)
      · rcases mem_updKey acc k w p h1 with h2 | h2
        · exact Or.inr h2
        · exact Or.inl (by simp [h2])

theorem buildDefaultsToSet_stable (cfg : StoreCfg V) (sec : SecurityModel V E)
    (L : List String) (k : String) (w : Option V)
    (hd : defaultVal cfg sec k = Except.ok w) :
    ∀ acc t, buildDefaultsToSet cfg sec L acc = Except.ok t →
      olookup acc k = some w → olookup t k = some w := by
  induction L with
  | nil =>
    intro acc t hb ha
    simp only [buildDefaultsToSet] at hb
    injection hb with hb
    subst hb
    exact ha
  | cons k' rest ih =>
    intro acc t hb ha
    rcases hd' : defaultVal cfg sec k' with e | w'
    · simp only [buildDefaultsToSet, hd'] at hb
      exact Except.noConfusion hb
    · simp only [buildDefaultsToSet, hd'] at hb
      apply ih (updKey acc k' w') t hb
      by_cases he : k' = k
      · subst he
        rw [hd'] at hd
        have hww : w' = w := by injection hd
        subst hww
        exact olookup_updKey_self acc k' w'
      · rw [olookup_updKey_ne acc k' k w' (fun hh => he hh.symm)]
        exact ha

theorem buildDefaultsToSet_lookup (cfg : StoreCfg V) (sec : SecurityModel V E)
    (L : List String) (k : String) :
    ∀ acc t, buildDefaultsToSet cfg sec L acc = Except.ok t → k ∈ L →
      ∃ w, defaultVal cfg sec k = Except.ok w ∧ olookup t k = some w := by
  induction L with
  | nil =>
    intro _ _ _ hk
    cases hk
  | cons k' rest ih =>
    intro acc t hb hk
    rcases hd' : defaultVal cfg sec k' with e | w'
    · simp only [buildDefaultsToSet, hd'] at hb
      exact Except.noConfusion hb
    · simp only [buildDefaultsToSet, hd'] at hb
      by_cases he : k' = k
      · subst he
        exact ⟨w', hd',
          buildDefaultsToSet_stable cfg sec rest k' w' hd' (updKey acc k' w') t hb
            (olookup_updKey_self acc k' w')⟩
      · rcases List.mem_cons.mp hk with h1 | h1
        · exact absurd h1.symm he
        · exact ih (updKey acc k' w') t hb h1

theorem buildDefaultsToSet_nodup (cfg : StoreCfg V) (sec : SecurityModel V E)
    (L : List String) :
    ∀ acc t, (acc.map (fun p => p.1)).Nodup →
      buildDefaultsToSet cfg sec L acc = Except.ok t →
      (t.map (fun p => p.1)).Nodup := by
  induction L with
  | nil =>
    intro acc t ha hb
    simp only [buildDefaultsToSet] at hb
    injection hb with hb
    subst hb
    exact ha
  | cons k rest ih =>
    intro acc t ha hb
    rcases hd : defaultVal cfg sec k with e | w
    · simp only [buildDefaultsToSet, hd] at hb
      exact Except.noConfusion hb
    · simp only [buildDefaultsToSet, hd] at hb
      exact ih (updKey acc k w) t (nodup_updKey_keys acc k w ha) hb

theorem buildDefaultsToSet_allNone (cfg : StoreCfg V) (sec : SecurityModel V E)
    (L : List String) :
    (∀ k ∈ L, defaultVal cfg sec k = Except.ok none) →
    ∀ acc, (∀ p ∈ acc, p.2 = none) →
      ∃ t, buildDefaultsToSet cfg sec L acc = Except.ok t ∧ ∀ p ∈ t, p.2 = none := by
  induction L with
  | nil =>
    intro _ acc ha
    exact ⟨acc, rfl, ha⟩
  | cons k rest ih =>
    intro hL acc ha
    have hk := hL k (List.mem_cons_self _ _)
    have hacc : ∀ p ∈ updKey acc k none, p.2 = (none : Option V) := by
      intro p hp
      rcases mem_updKey acc k none p hp with h1 | h1
      · exact ha p h1
      · simp [h1]
    rcases ih (fun k2 hk2 => hL k2 (List.mem_cons_of_mem _ hk2)) (updKey acc k none) hacc
      with ⟨t, ht, hta⟩
    refine ⟨t, ?_, hta⟩
    simp only [buildDefaultsToSet, hk]
    exact ht

theorem buildDefaultsToSet_total (cfg : StoreCfg V) (sec : SecurityModel V E)
    (henc : ∀ x, ∃ y, sec.encrypt x = Except.ok y) (L : List String) :
    ∀ acc, ∃ t, buildDefaultsToSet cfg sec L acc = Except.ok t := by
  induction L with
  | nil =>
    intro acc
    exact ⟨acc, rfl⟩
  | cons k rest ih =>
    intro acc
    have hd : ∃ w, defaultVal cfg sec k = Except.ok w := by
      cases he : cfg.isEncrypted with
      | true => simpa [defaultVal, he] using henc (jsIndex cfg.defaults k)
      | false => exact ⟨jsIndex cfg.defaults k, by simp [defaultVal, he]⟩
    rcases hd with ⟨w, hw⟩
    rcases ih (updKey acc k w) with ⟨t, ht⟩
    refine ⟨t, ?_⟩
    simp only [buildDefaultsToSet, hw]
    exact ht


/-! ### Characterisation of the seeding step -/

theorem mem_missingKeys (cfg : StoreCfg V) (h : HostData V) (k : String) :
    k ∈ missingKeys cfg h ↔ k ∈ actualKeys cfg ∧ olookup h k = none := by
  unfold missingKeys
  rw [List.mem_filter]
  constructor
  · rintro ⟨h1, h2⟩
    refine ⟨h1, ?_⟩
    have h3 := Option.isNone_iff_eq_none.mp h2
    rwa [olookup_hostGet h (actualKeys cfg) k h1] at h3
  · rintro ⟨h1, h2⟩
    refine ⟨h1, ?_⟩
    rw [Option.isNone_iff_eq_none, olookup_hostGet h (actualKeys cfg) k h1, h2]

theorem initOp_noFaults_cases (cfg : StoreCfg V) (sec : SecurityModel V E) (b : Bool)
    (h : HostData V) :
    ((missingKeys cfg h).isEmpty = true ∧
       initOp cfg sec noFaults b h =
         ⟨Except.ok (), true, h, [HostCall.get cfg.area (actualKeys cfg)]⟩)
    ∨ (∃ e, (missingKeys cfg h).isEmpty = false ∧
         buildDefaultsToSet cfg sec (missingKeys cfg h) [] = Except.error e ∧
         initOp cfg sec noFaults b h =
           ⟨Except.error e, b, h, [HostCall.get cfg.area (actualKeys cfg)]⟩)
    ∨ (∃ toSet, (missingKeys cfg h).isEmpty = false ∧
         buildDefaultsToSet cfg sec (missingKeys cfg h) [] = Except.ok toSet ∧
         initOp cfg sec noFaults b h =
           ⟨Except.ok (), true, hostSet h toSet,
             [HostCall.get cfg.area (actualKeys cfg), HostCall.set cfg.area toSet]⟩) := by
  cases hempty : (missingKeys cfg h).isEmpty with
  | true =>
    left
    exact ⟨rfl, by simp [initOp, noFaults, hempty]⟩
  | false =>
    rcases hb : buildDefaultsToSet cfg sec (missingKeys cfg h) [] with e | toSet
    · right; left
      exact ⟨e, rfl, rfl, by simp [initOp, noFaults, hempty, hb]⟩
    · right; right
      exact ⟨toSet, rfl, rfl, by simp [initOp, noFaults, hempty, hb]⟩


/-! ### Claim theorems -/

/-- C2: for every store and host state, `initialize()` writes only actual
keys absent from the batched read result — it never overwrites an existing
value, even one differing from the declared default — and running
`initialize()` a second time in sequence leaves the host storage state
produced by the first run unchanged. -/
theorem c2_init_writes_only_missing_and_idempotent
    (cfg : StoreCfg V) (sec : SecurityModel V E) (h : HostData V) :
    (∀ k v, olookup h k = some v →
        olookup (initOp cfg sec noFaults false h).host k = some v)
    ∧ (∀ k, olookup (initOp cfg sec noFaults false h).host k ≠ olookup h k →
        olookup h k = none)
    ∧ ((initOp cfg sec noFaults false h).res = Except.ok () →
        (initOp cfg sec noFaults (initOp cfg sec noFaults false h).inited
            (initOp cfg sec noFaults false h).host).host
          = (initOp cfg sec noFaults false h).host) := by
  have hpreserve : ∀ k v, olookup h k = some v →
      olookup (initOp cfg sec noFaults false h).host k = some v := by
    rcases initOp_noFaults_cases cfg sec false h with
      ⟨hempty, heq⟩ | ⟨e, hne, hbuild, heq⟩ | ⟨toSet, hne, hbuild, heq⟩
    · intro k v hv
      rw [heq]
      exact hv
    · intro k v hv
      rw [heq]
      exact hv
    · intro k v hv
      rw [heq]
      show olookup (hostSet h toSet) k = some v
      have hside : ∀ p ∈ toSet, p.2.isSome → p.1 ≠ k := by
        intro p hp _ hpk
        rcases buildDefaultsToSet_mem cfg sec (missingKeys cfg h) [] toSet hbuild p hp
          with h1 | h1
        · have h2 := (mem_missingKeys cfg h p.1).mp h1
          rw [hpk, hv] at h2
          exact Option.noConfusion h2.2
        · exact absurd h1 (List.not_mem_nil p)
      rw [olookup_hostSet_untouched h toSet k hside]
      exact hv
  have honly : ∀ k, olookup (initOp cfg sec noFaults false h).host k ≠ olookup h k →
      olookup h k = none := by
    intro k hne2
    cases hv : olookup h k with
    | none => rfl
    | some v => exact absurd ((hpreserve k v hv).trans hv.symm) hne2
  refine ⟨hpreserve, honly, ?_⟩
  intro hok
  rcases initOp_noFaults_cases cfg sec false h with
    ⟨hempty, heq⟩ | ⟨e, hne, hbuild, heq⟩ | ⟨toSet, hne, hbuild, heq⟩
  · rw [heq]
    show (initOp cfg sec noFaults true h).host = h
    rcases initOp_noFaults_cases cfg sec (V := V) (E := E) true h with
      ⟨_, heq2⟩ | ⟨e2, hne2, _, heq2⟩ | ⟨t2, hne2, _, heq2⟩
    · rw [heq2]
    · rw [hempty] at hne2
      exact Bool.noConfusion hne2
    · rw [hempty] at hne2
      exact Bool.noConfusion hne2
  · rw [heq] at hok
    exact Except.noConfusion hok
  · rw [heq]
    show (initOp cfg sec noFaults true (hostSet h toSet)).host = hostSet h toSet
    have hnodup : (toSet.map (fun p => p.1)).Nodup :=
      buildDefaultsToSet_nodup cfg sec (missingKeys cfg h) [] toSet (by simp) hbuild
    have hA : ∀ k2 ∈ missingKeys cfg (hostSet h toSet),
        defaultVal cfg sec k2 = Except.ok none := by
      intro k2 hk2
      have h2 := (mem_missingKeys cfg (hostSet h toSet) k2).mp hk2
      have hhk : olookup h k2 = none := by
        cases hv : olookup h k2 with
        | none => rfl
        | some v =>
          have h3 := hpreserve k2 v hv
          rw [heq] at h3
          have h4 : olookup (hostSet h toSet) k2 = some v := h3
          rw [h2.2] at h4
          exact Option.noConfusion h4
      have hkmiss1 : k2 ∈ missingKeys cfg h :=
        (mem_missingKeys cfg h k2).mpr ⟨h2.1, hhk⟩
      rcases buildDefaultsToSet_lookup cfg sec (missingKeys cfg h) k2 [] toSet hbuild
        hkmiss1 with ⟨w, hdw, hlw⟩
      cases w with
      | none => exact hdw
      | some c =>
        have h5 := olookup_hostSet_some h toSet k2 c hnodup hlw
        rw [h2.2] at h5
        exact Option.noConfusion h5
    rcases initOp_noFaults_cases cfg sec true (hostSet h toSet) with
      ⟨_, heq2⟩ | ⟨e2, _, hbuild2, heq2⟩ | ⟨t2, _, hbuild2, heq2⟩
    · rw [heq2]
    · rcases buildDefaultsToSet_allNone cfg sec (missingKeys cfg (hostSet h toSet)) hA []
        (by simp) with ⟨t', ht', _⟩
      rw [ht'] at hbuild2
      exact Except.noConfusion hbuild2
    · rcases buildDefaultsToSet_allNone cfg sec (missingKeys cfg (hostSet h toSet)) hA []
        (by simp) with ⟨t', ht', htnone⟩
      rw [ht'] at hbuild2
      have ht2 : t' = t2 := by injection hbuild2
      rw [heq2]
      show hostSet (hostSet h toSet) t2 = hostSet h toSet
      exact hostSet_allNone (hostSet h toSet) t2 (ht2 ▸ htnone)

/-- Witness for C2 at a concrete store: an existing value survives
seeding, and a second `initialize()` leaves the host state unchanged. -/
theorem c2_witness :
    olookup (initOp cfgPrefs idSec noFaults false
        [("prefs:theme", JsVal.str "old")]).host "prefs:theme"
      = some (JsVal.str "old")
    ∧ (initOp cfgPrefs idSec noFaults
        (initOp cfgPrefs idSec noFaults false [("prefs:theme", JsVal.str "old")]).inited
        (initOp cfgPrefs idSec noFaults false [("prefs:theme", JsVal.str "old")]).host).host
      = (initOp cfgPrefs idSec noFaults false [("prefs:theme", JsVal.str "old")]).host :=
  ⟨(c2_init_writes_only_missing_and_idempotent cfgPrefs idSec
      [("prefs:theme", JsVal.str "old")]).1 "prefs:theme" (JsVal.str "old") rfl,
   (c2_init_writes_only_missing_and_idempotent cfgPrefs idSec
      [("prefs:theme", JsVal.str "old")]).2.2 rfl⟩


/-- C1: evaluation of the code at the specification's own scenario — an
unencrypted store `prefs` with defaults for `theme` and `volume`, then
`set("theme", "dark")`, then `all()`.  The result is keyed by the prefixed
actual key `prefs:theme` (not the logical key `theme`), and `volume` is
absent entirely because the seeding loop indexes `defaults` with the
prefixed key, so the declared defaults are never written.  The claimed
result, a logical-key map of `theme` to `dark` and `volume` to `50`, is not
what the code produces. -/
theorem c1_all_keyed_by_actual_keys :
    (allOp cfgPrefs idSec noFaults
        (setKeyOp cfgPrefs idSec noFaults false [] "theme" (some (JsVal.str "dark"))).inited
        (setKeyOp cfgPrefs idSec noFaults false [] "theme" (some (JsVal.str "dark"))).host).res
      = Except.ok [("prefs:theme", some (JsVal.str "dark"))] := rfl

/-- C5: requesting encryption without the secret configured makes
`createStore` fail synchronously with the missing-password error (the
caller receives no usable store), and construction performs no host I/O in
any case — its host-call trace is empty. -/
theorem c5_construction_secret_check (V : Type) (sid : String) (defaults : Obj V)
    (area : String) (opt : Option Bool) (pw : Bool) :
    ((opt.getD false) = true → pw = false →
       (createStore V sid defaults area opt pw).1 = Except.error CfgError.missingPassword)
    ∧ (createStore V sid defaults area opt pw).2 = [] := by
  constructor
  · intro henc hpw
    simp [createStore, henc, hpw]
  · simp only [createStore]
    split
    · rfl
    · rfl

/-- Witness for C5: a concrete encrypted store without a password fails at
construction and issues no host calls. -/
theorem c5_witness :
    (createStore Nat "s" [] "local" (some true) false).1
        = Except.error CfgError.missingPassword
    ∧ (createStore Nat "s" [] "local" (some true) false).2 = [] :=
  ⟨(c5_construction_secret_check Nat "s" [] "local" (some true) false).1 rfl rfl,
   (c5_construction_secret_check Nat "s" [] "local" (some true) false).2⟩

/-- C6: the listener registered by `subscribe` never invokes the callback
when the event's area name differs from the store's area, or when the
event's changed-keys set does not contain the logical key's actual key;
such events produce no invocation (`Except.ok none`) and no error. -/
theorem c6_subscribe_filters (cfg : StoreCfg V) (sec : SecurityModel V E) (k : String)
    (changes : List (String × ValChange V)) (areaName : String)
    (hfilter : areaName ≠ cfg.area ∨ olookup changes (actualKey cfg k) = none) :
    subEvent cfg sec k changes areaName = Except.ok none := by
  rcases hfilter with hA | hK
  · simp [subEvent, hA]
  · by_cases hA : areaName ≠ cfg.area
    · simp [subEvent, hA]
    · simp [subEvent, hA, hK]

/-- Witness for C6: an event reported in area `sync` does not reach a
listener registered on the `local`-area store. -/
theorem c6_witness :
    subEvent cfgPrefs idSec "theme"
        [("prefs:theme", ⟨none, some (JsVal.str "dark")⟩)] "sync" = Except.ok none :=
  c6_subscribe_filters cfgPrefs idSec "theme"
    [("prefs:theme", ⟨none, some (JsVal.str "dark")⟩)] "sync" (Or.inl (by decide))

/-- C9: `subscribe` returns the wrapper listener it registered — a fresh
function, not the caller's original callback; passing exactly that handle
to `unsubscribe` removes it, restoring the previous registry (stopping
delivery); and unsubscribing any handle that is not currently registered
leaves the registry unchanged (a no-op that cannot throw). -/
theorem c9_subscribe_handle (st : Listeners) (cb : Nat)
    (hwf : ∀ l ∈ st.registered, l < st.nextId) (hcb : cb < st.nextId) :
    ((subscribeOp st).1 ∈ (subscribeOp st).2.registered)
    ∧ (subscribeOp st).1 ≠ cb
    ∧ (unsubscribeOp (subscribeOp st).2 (subscribeOp st).1).registered = st.registered
    ∧ (∀ g, g ∉ (subscribeOp st).2.registered →
        (unsubscribeOp (subscribeOp st).2 g).registered
          = (subscribeOp st).2.registered) := by
  have hfresh : st.nextId ∉ st.registered :=
    fun hmem => absurd (hwf _ hmem) (lt_irrefl _)
  have hsub : (subscribeOp st).2.registered = st.registered ++ [st.nextId] := by
    simp [subscribeOp, addListener, hfresh]
  refine ⟨?_, ?_, ?_, ?_⟩
  · show st.nextId ∈ (subscribeOp st).2.registered
    rw [hsub]
    exact List.mem_append_right _ (List.mem_singleton.mpr rfl)
  · show st.nextId ≠ cb
    exact Ne.symm (Nat.ne_of_lt hcb)
  · show (unsubscribeOp (subscribeOp st).2 st.nextId).registered = st.registered
    simp only [unsubscribeOp, removeListener, hsub]
    rw [List.filter_append]
    have h1 : (List.filter (fun x => decide ¬x = st.nextId) [st.nextId]) = [] := by simp
    have h2 : (List.filter (fun x => decide ¬x = st.nextId) st.registered)
        = st.registered := by
      rw [List.filter_eq_self]
      intro a ha
      simp only [decide_eq_true_eq]
      exact Nat.ne_of_lt (hwf a ha)
    rw [h1, h2, List.append_nil]
  · intro g hg
    show (unsubscribeOp (subscribeOp st).2 g).registered = (subscribeOp st).2.registered
    simp only [unsubscribeOp, removeListener]
    rw [List.filter_eq_self]
    intro a ha
    simp only [decide_eq_true_eq]
    exact fun hag => hg (hag ▸ ha)

/-- Witness for C9 on a registry holding one earlier callback. -/
theorem c9_witness :
    ((subscribeOp ⟨[0], 1⟩).1 ∈ (subscribeOp ⟨[0], 1⟩).2.registered)
    ∧ (subscribeOp ⟨[0], 1⟩).1 ≠ 0
    ∧ (unsubscribeOp (subscribeOp ⟨[0], 1⟩).2 (subscribeOp ⟨[0], 1⟩).1).registered = [0]
    ∧ (∀ g, g ∉ (subscribeOp ⟨[0], 1⟩).2.registered →
        (unsubscribeOp (subscribeOp ⟨[0], 1⟩).2 g).registered
          = (subscribeOp ⟨[0], 1⟩).2.registered) :=
  c9_subscribe_handle ⟨[0], 1⟩ 0
    (by
      intro l hl
      rw [List.mem_singleton] at hl
      subst hl
      decide)
    (by decide)

/-- C3: after the store has initialized, `set(k, undefined)` issues only a
remove of the actual key (writing nothing), the actual key is gone from
host storage, and a subsequent `get(k)` returns absent — not the declared
default — issuing only a single read (no re-seeding). -/
theorem c3_sentinel_removes (cfg : StoreCfg V) (sec : SecurityModel V E)
    (h : HostData V) (k : String)
    (hdec : cfg.isEncrypted = true → sec.decrypt none = Except.ok none) :
    (setKeyOp cfg sec noFaults true h k none).res = Except.ok ()
    ∧ (setKeyOp cfg sec noFaults true h k none).host = hostRemove h [actualKey cfg k]
    ∧ olookup (setKeyOp cfg sec noFaults true h k none).host (actualKey cfg k) = none
    ∧ (setKeyOp cfg sec noFaults true h k none).trace
        = [HostCall.remove cfg.area [actualKey cfg k]]
    ∧ (getOp cfg sec noFaults true (setKeyOp cfg sec noFaults true h k none).host k).res
        = Except.ok none
    ∧ (getOp cfg sec noFaults true (setKeyOp cfg sec noFaults true h k none).host k).trace
        = [HostCall.get cfg.area [actualKey cfg k]] := by
  have hset : setKeyOp cfg sec noFaults true h k none
      = ⟨Except.ok (), true, hostRemove h [actualKey cfg k],
          [HostCall.remove cfg.area [actualKey cfg k]]⟩ := by
    simp [setKeyOp, ensureInit, noFaults]
  have hval : olookup (hostGet (hostRemove h [actualKey cfg k]) [actualKey cfg k])
      (actualKey cfg k) = none := by
    rw [olookup_hostGet _ _ _ (List.mem_singleton.mpr rfl)]
    exact olookup_hostRemove_mem h _ _ (List.mem_singleton.mpr rfl)
  have hget : getOp cfg sec noFaults true (hostRemove h [actualKey cfg k]) k
      = ⟨Except.ok none, true, hostRemove h [actualKey cfg k],
          [HostCall.get cfg.area [actualKey cfg k]]⟩ := by
    cases he : cfg.isEncrypted with
    | false => simp [getOp, ensureInit, noFaults, he, hval]
    | true => simp [getOp, ensureInit, noFaults, he, hval, hdec he]
  simp only [hset]
  refine ⟨trivial, trivial, ?_, trivial, ?_, ?_⟩
  · exact olookup_hostRemove_mem h _ _ (List.mem_singleton.mpr rfl)
  · rw [hget]
  · rw [hget]

/-- Witness for C3 on a concrete encrypted store. -/
theorem c3_witness :
    (getOp cfgSecret natSec noFaults true
        (setKeyOp cfgSecret natSec noFaults true [("sec:token", 2)] "token" none).host
        "token").res = Except.ok none :=
  (c3_sentinel_removes cfgSecret natSec [("sec:token", 2)] "token"
    (fun _ => rfl)).2.2.2.2.1


/-- C8: for every encrypted store whose encryption collaborator satisfies
the round-trip law (encrypting a value yields a ciphertext value whose
decryption returns the original), `set(k, v)` followed by `get(k)` returns
`v` for every logical key and every non-sentinel value. -/
theorem c8_encrypted_roundtrip (cfg : StoreCfg V) (sec : SecurityModel V E)
    (h : HostData V) (k : String) (v : V)
    (hE : cfg.isEncrypted = true)
    (hTot : ∀ x, ∃ y, sec.encrypt x = Except.ok y)
    (hRT : ∀ u, ∃ w, sec.encrypt (some u) = Except.ok (some w)
        ∧ sec.decrypt (some w) = Except.ok (some u)) :
    (setKeyOp cfg sec noFaults false h k (some v)).res = Except.ok ()
    ∧ (getOp cfg sec noFaults
        (setKeyOp cfg sec noFaults false h k (some v)).inited
        (setKeyOp cfg sec noFaults false h k (some v)).host k).res
      = Except.ok (some v) := by
  have hinit : ∃ h2 tr, initOp cfg sec noFaults false h = ⟨Except.ok (), true, h2, tr⟩ := by
    rcases initOp_noFaults_cases cfg sec false h with
      ⟨_, heq⟩ | ⟨e, _, hbuild, _⟩ | ⟨toSet, _, _, heq⟩
    · exact ⟨h, _, heq⟩
    · rcases buildDefaultsToSet_total cfg sec hTot (missingKeys cfg h) [] with ⟨t, ht⟩
      rw [ht] at hbuild
      exact Except.noConfusion hbuild
    · exact ⟨hostSet h toSet, _, heq⟩
  obtain ⟨h2, tr, hinit⟩ := hinit
  obtain ⟨w, hw, hwd⟩ := hRT v
  have hset : setKeyOp cfg sec noFaults false h k (some v)
      = ⟨Except.ok (), true, hostSet h2 [(actualKey cfg k, some w)],
          tr ++ [HostCall.set cfg.area [(actualKey cfg k, some w)]]⟩ := by
    simp only [noFaults] at hinit
    simp [setKeyOp, ensureInit, noFaults, hinit, hE, hw]
  have hlook : olookup (hostGet (hostSet h2 [(actualKey cfg k, some w)]) [actualKey cfg k])
      (actualKey cfg k) = some w := by
    rw [olookup_hostGet _ _ _ (List.mem_singleton.mpr rfl)]
    have hrw : hostSet h2 [(actualKey cfg k, some w)] = updKey h2 (actualKey cfg k) w := rfl
    rw [hrw]
    exact olookup_updKey_self h2 _ w
  constructor
  · simp [hset]
  · simp only [hset]
    simp [getOp, ensureInit, noFaults, hE, hlook, hwd]

/-- Witness for C8 on a concrete encrypted store over `Nat` values with a
successor/predecessor encryption pair. -/
theorem c8_witness :
    (setKeyOp cfgSecret natSec noFaults false [] "token" (some 5)).res = Except.ok ()
    ∧ (getOp cfgSecret natSec noFaults
        (setKeyOp cfgSecret natSec noFaults false [] "token" (some 5)).inited
        (setKeyOp cfgSecret natSec noFaults false [] "token" (some 5)).host "token").res
      = Except.ok (some 5) :=
  c8_encrypted_roundtrip cfgSecret natSec [] "token" 5 rfl
    (fun x => ⟨some (x.getD 0 + 1), rfl⟩)
    (fun u => ⟨u + 1, rfl, rfl⟩)

/-- C10: the initialized flag equals the success of the seeding pass (it is
set only after the host read, any encryption of defaults, and the batched
write all succeed); on failure the error propagates through `get`, `set`
(both forms) and `all`, the flag remains false, and each of those calls
re-attempts the seeding step — its trace is the seeding trace, whose first
call is the batched read of all actual keys. -/
theorem c10_init_flag_monotone (cfg : StoreCfg V) (sec : SecurityModel V E)
    (f : Faults E) (h : HostData V) (k : String) (v : Option V) (m : Obj V) :
    ((initOp cfg sec f false h).inited = exOk (initOp cfg sec f false h).res)
    ∧ (∀ e, (initOp cfg sec f false h).res = Except.error e →
        (getOp cfg sec f false h k).res = Except.error e
        ∧ (getOp cfg sec f false h k).inited = false
        ∧ (getOp cfg sec f false h k).trace = (initOp cfg sec f false h).trace
        ∧ (setKeyOp cfg sec f false h k v).res = Except.error e
        ∧ (setKeyOp cfg sec f false h k v).inited = false
        ∧ (setBulkOp cfg sec f false h m).res = Except.error e
        ∧ (setBulkOp cfg sec f false h m).inited = false
        ∧ (allOp cfg sec f false h).res = Except.error e
        ∧ (allOp cfg sec f false h).inited = false
        ∧ (initOp cfg sec f false h).trace.head?
            = some (HostCall.get cfg.area (actualKeys cfg))) := by
  have hflag : (initOp cfg sec f false h).inited = exOk (initOp cfg sec f false h).res := by
    cases hg : f.getErr with
    | some e => simp [initOp, hg, exOk]
    | none =>
      cases hempty : (missingKeys cfg h).isEmpty with
      | true => simp [initOp, hg, hempty, exOk]
      | false =>
        rcases hb : buildDefaultsToSet cfg sec (missingKeys cfg h) [] with e | toSet
        · simp [initOp, hg, hempty, hb, exOk]
        · cases hs : f.setErr with
          | some e => simp [initOp, hg, hempty, hb, hs, exOk]
          | none => simp [initOp, hg, hempty, hb, hs, exOk]
  refine ⟨hflag, ?_⟩
  intro e herr
  have hfalse : (initOp cfg sec f false h).inited = false := by
    rw [hflag, herr]
    rfl
  have hget : getOp cfg sec f false h k
      = ⟨Except.error e, (initOp cfg sec f false h).inited,
          (initOp cfg sec f false h).host, (initOp cfg sec f false h).trace⟩ := by
    simp [getOp, ensureInit, herr]
  have hsetk : setKeyOp cfg sec f false h k v
      = ⟨Except.error e, (initOp cfg sec f false h).inited,
          (initOp cfg sec f false h).host, (initOp cfg sec f false h).trace⟩ := by
    simp [setKeyOp, ensureInit, herr]
  have hbulk : setBulkOp cfg sec f false h m
      = ⟨Except.error e, (initOp cfg sec f false h).inited,
          (initOp cfg sec f false h).host, (initOp cfg sec f false h).trace⟩ := by
    simp [setBulkOp, ensureInit, herr]
  have hall : allOp cfg sec f false h
      = ⟨Except.error e, (initOp cfg sec f false h).inited,
          (initOp cfg sec f false h).host, (initOp cfg sec f false h).trace⟩ := by
    simp [allOp, ensureInit, herr]
  have hhead : (initOp cfg sec f false h).trace.head?
      = some (HostCall.get cfg.area (actualKeys cfg)) := by
    cases hg : f.getErr with
    | some e2 => simp [initOp, hg]
    | none =>
      cases hempty : (missingKeys cfg h).isEmpty with
      | true => simp [initOp, hg, hempty]
      | false =>
        rcases hb : buildDefaultsToSet cfg sec (missingKeys cfg h) [] with e2 | toSet
        · simp [initOp, hg, hempty, hb]
        · cases hs2 : f.setErr with
          | some e2 => simp [initOp, hg, hempty, hb, hs2]
          | none => simp [initOp, hg, hempty, hb, hs2]
  exact ⟨by simp [hget], by simp [hget, hfalse], by simp [hget],
         by simp [hsetk], by simp [hsetk, hfalse],
         by simp [hbulk], by simp [hbulk, hfalse],
         by simp [hall], by simp [hall, hfalse], hhead⟩

/-- Witness for C10: with a rejecting host read, the flag stays false and
the error surfaces through `get`. -/
theorem c10_witness :
    (initOp cfgPrefs idSecStr getFault false []).inited
        = exOk (initOp cfgPrefs idSecStr getFault false []).res
    ∧ (getOp cfgPrefs idSecStr getFault false [] "theme").res = Except.error "boom"
    ∧ (getOp cfgPrefs idSecStr getFault false [] "theme").inited = false :=
  ⟨(c10_init_flag_monotone cfgPrefs idSecStr getFault [] "theme" none []).1,
   ((c10_init_flag_monotone cfgPrefs idSecStr getFault [] "theme" none []).2 "boom" rfl).1,
   ((c10_init_flag_monotone cfgPrefs idSecStr getFault [] "theme" none []).2 "boom" rfl).2.1⟩


/-! ### Lemmas about the bulk-set partition loop -/

theorem buildBulk_total (cfg : StoreCfg V) (sec : SecurityModel V E)
    (hDef : ∀ u, ∃ c, sec.encrypt (some u) = Except.ok (some c)) (m : Obj V) :
    ∀ rems toSet, ∃ out, buildBulk cfg sec m rems toSet = Except.ok out := by
  induction m with
  | nil =>
    intro rems toSet
    exact ⟨(rems, toSet), rfl⟩
  | cons p rest ih =>
    intro rems toSet
    obtain ⟨k, v⟩ := p
    cases v with
    | none => exact ih (rems ++ [actualKey cfg k]) toSet
    | some v' =>
      have hw : ∃ w, (if cfg.isEncrypted then sec.encrypt (some v')
          else Except.ok (some v')) = Except.ok (some w) := by
        cases he : cfg.isEncrypted with
        | true => simpa [he] using hDef v'
        | false => exact ⟨v', by simp [he]⟩
      obtain ⟨w, hw⟩ := hw
      rcases ih rems (updKey toSet (actualKey cfg k) (some w)) with ⟨out, hout⟩
      refine ⟨out, ?_⟩
      simp only [buildBulk, hw]
      exact hout

theorem buildBulk_rems (cfg : StoreCfg V) (sec : SecurityModel V E) (m : Obj V) :
    ∀ rems toSet rems' toSet',
      buildBulk cfg sec m rems toSet = Except.ok (rems', toSet') →
      rems' = rems ++ (m.filter (fun p => p.2.isNone)).map (fun p => actualKey cfg p.1) := by
  induction m with
  | nil =>
    intro rems toSet rems' toSet' hb
    simp only [buildBulk] at hb
    injection hb with hb
    injection hb with h1 h2
    subst h1
    simp
  | cons p rest ih =>
    intro rems toSet rems' toSet' hb
    obtain ⟨k, v⟩ := p
    cases v with
    | none =>
      have hb2 : buildBulk cfg sec rest (rems ++ [actualKey cfg k]) toSet
          = Except.ok (rems', toSet') := hb
      rw [ih _ _ _ _ hb2]
      simp [List.filter_cons]
    | some v' =>
      rcases henc : (if cfg.isEncrypted then sec.encrypt (some v')
          else Except.ok (some v')) with e | w
      · simp only [buildBulk, henc] at hb
        exact Except.noConfusion hb
      · simp only [buildBulk, henc] at hb
        rw [ih _ _ _ _ hb]
        simp [List.filter_cons]

theorem buildBulk_defined (cfg : StoreCfg V) (sec : SecurityModel V E)
    (hDef : ∀ u, ∃ c, sec.encrypt (some u) = Except.ok (some c)) (m : Obj V) :
    ∀ rems toSet rems' toSet',
      buildBulk cfg sec m rems toSet = Except.ok (rems', toSet') →
      (∀ p ∈ toSet, p.2.isSome = true) → ∀ p ∈ toSet', p.2.isSome = true := by
  induction m with
  | nil =>
    intro rems toSet rems' toSet' hb hts
    simp only [buildBulk] at hb
    injection hb with hb
    injection hb with h1 h2
    subst h2
    exact hts
  | cons q rest ih =>
    intro rems toSet rems' toSet' hb hts
    obtain ⟨k, v⟩ := q
    cases v with
    | none => exact ih _ _ _ _ hb hts
    | some v' =>
      rcases henc : (if cfg.isEncrypted then sec.encrypt (some v')
          else Except.ok (some v')) with e | w
      · simp only [buildBulk, henc] at hb
        exact Except.noConfusion hb
      · simp only [buildBulk, henc] at hb
        have hw : w.isSome = true := by
          cases he : cfg.isEncrypted with
          | true =>
            rw [he] at henc
            obtain ⟨c, hc⟩ := hDef v'
            rw [if_pos rfl, hc] at henc
            injection henc with henc
            rw [← henc]
            rfl
          | false =>
            rw [he] at henc
            have henc2 : Except.ok (some v') = Except.ok w := henc
            injection henc2 with henc2
            rw [← henc2]
            rfl
        refine ih _ _ _ _ hb ?_
        intro p hp
        rcases mem_updKey toSet (actualKey cfg k) w p hp with h1 | h1
        · exact hts p h1
        · rw [h1]
          exact hw

theorem buildBulk_provenance (cfg : StoreCfg V) (sec : SecurityModel V E) (m : Obj V) :
    ∀ rems toSet rems' toSet',
      buildBulk cfg sec m rems toSet = Except.ok (rems', toSet') →
      ∀ p ∈ toSet', p ∈ toSet ∨ ∃ k2 v2, (k2, some v2) ∈ m ∧ p.1 = actualKey cfg k2 := by
  induction m with
  | nil =>
    intro rems toSet rems' toSet' hb p hp
    simp only [buildBulk] at hb
    injection hb with hb
    injection hb with h1 h2
    subst h2
    exact Or.inl hp
  | cons q rest ih =>
    intro rems toSet rems' toSet' hb p hp
    obtain ⟨k, v⟩ := q
    cases v with
    | none =>
      rcases ih _ _ _ _ hb p hp with h1 | ⟨k2, v2, hm2, hp2⟩
      · exact Or.inl h1
      · exact Or.inr ⟨k2, v2, List.mem_cons_of_mem _ hm2, hp2⟩
    | some v' =>
      rcases henc : (if cfg.isEncrypted then sec.encrypt (some v')
          else Except.ok (some v')) with e | w
      · simp only [buildBulk, henc] at hb
        exact Except.noConfusion hb
      · simp only [buildBulk, henc] at hb
        rcases ih _ _ _ _ hb p hp with h1 | ⟨k2, v2, hm2, hp2⟩
        · rcases mem_updKey toSet (actualKey cfg k) w p h1 with h2 | h2
          · exact Or.inl h2
          · exact Or.inr ⟨k, v', List.mem_cons_self _ _, by rw [h2]⟩
        · exact Or.inr ⟨k2, v2, List.mem_cons_of_mem _ hm2, hp2⟩

theorem olookup_mem (o : List (String × α)) (k : String) (w : α)
    (h : olookup o k = some w) : (k, w) ∈ o := by
  induction o with
  | nil => simp [olookup] at h
  | cons p rest ih =>
    obtain ⟨k', v'⟩ := p
    simp only [olookup] at h
    by_cases hk : k' = k
    · subst hk
      rw [if_pos rfl] at h
      injection h with h
      subst h
      exact List.mem_cons_self _ _
    · rw [if_neg hk] at h
      exact List.mem_cons_of_mem _ (ih h)

theorem buildBulk_keeps_binding (cfg : StoreCfg V) (sec : SecurityModel V E) (m : Obj V) :
    ∀ rems toSet rems' toSet' s w,
      buildBulk cfg sec m rems toSet = Except.ok (rems', toSet') →
      olookup toSet s = some w →
      ∃ w2, olookup toSet' s = some w2 := by
  induction m with
  | nil =>
    intro rems toSet rems' toSet' s w hb hl
    simp only [buildBulk] at hb
    injection hb with hb
    injection hb with h1 h2
    subst h2
    exact ⟨w, hl⟩
  | cons q rest ih =>
    intro rems toSet rems' toSet' s w hb hl
    obtain ⟨k, v⟩ := q
    cases v with
    | none => exact ih _ _ _ _ s w hb hl
    | some v' =>
      rcases henc : (if cfg.isEncrypted then sec.encrypt (some v')
          else Except.ok (some v')) with e | w'
      · simp only [buildBulk, henc] at hb
        exact Except.noConfusion hb
      · simp only [buildBulk, henc] at hb
        by_cases hk : actualKey cfg k = s
        · refine ih _ _ _ _ s w' hb ?_
          rw [← hk]
          exact olookup_updKey_self toSet _ w'
        · refine ih _ _ _ _ s w hb ?_
          rw [olookup_updKey_ne toSet _ s w' (fun he => hk he.symm)]
          exact hl

theorem buildBulk_complete (cfg : StoreCfg V) (sec : SecurityModel V E) (m : Obj V) :
    ∀ rems toSet rems' toSet',
      buildBulk cfg sec m rems toSet = Except.ok (rems', toSet') →
      ∀ k v, (k, some v) ∈ m → ∃ w, olookup toSet' (actualKey cfg k) = some w := by
  induction m with
  | nil =>
    intro rems toSet rems' toSet' hb k v hm
    exact absurd hm (List.not_mem_nil _)
  | cons q rest ih =>
    intro rems toSet rems' toSet' hb k v hm
    obtain ⟨k1, v1⟩ := q
    cases v1 with
    | none =>
      rcases List.mem_cons.mp hm with h1 | h1
      · injection h1 with h2 h3
        exact Option.noConfusion h3
      · exact ih _ _ _ _ hb k v h1
    | some u =>
      rcases henc : (if cfg.isEncrypted then sec.encrypt (some u)
          else Except.ok (some u)) with e | w'
      · simp only [buildBulk, henc] at hb
        exact Except.noConfusion hb
      · simp only [buildBulk, henc] at hb
        rcases List.mem_cons.mp hm with h1 | h1
        · injection h1 with h2 h3
          subst h2
          exact buildBulk_keeps_binding cfg sec rest _ _ _ _ _ w' hb
            (olookup_updKey_self toSet _ w')
        · exact ih _ _ _ _ hb k v h1

theorem bulkPhases_noFaults (cfg : StoreCfg V) (rems : List String) (toSet : Obj V)
    (b : Bool) (h : HostData V) (tr : List (HostCall V)) :
    (bulkPhases cfg (noFaults (E := E)) rems toSet b h tr).res = Except.ok ()
    ∧ (bulkPhases cfg (noFaults (E := E)) rems toSet b h tr).trace
        = tr ++ ((if rems.isEmpty then [] else [HostCall.remove cfg.area rems])
            ++ (if toSet.isEmpty then [] else [HostCall.set cfg.area toSet])) := by
  cases hr : rems.isEmpty <;> cases hts : toSet.isEmpty <;>
    simp [bulkPhases, bulkSetPhase, noFaults, hr, hts]

/-- C4: the bulk form of `set` partitions its argument into a remove-set
(exactly the entries whose value is the sentinel, mapped to actual keys, in
order) and a set-set containing all the other entries — every non-sentinel
entry of the argument is bound in the batched set call under its actual
key, with a defined (optionally encrypted) value; it issues at most one
batched remove and at most one batched set, the remove first, each only
when its set is non-empty, and the batched set call never contains a
sentinel value. -/
theorem c4_bulk_set_partitions (cfg : StoreCfg V) (sec : SecurityModel V E)
    (h : HostData V) (m : Obj V)
    (hDef : ∀ u, ∃ c, sec.encrypt (some u) = Except.ok (some c)) :
    ∃ rems toSet,
      buildBulk cfg sec m [] [] = Except.ok (rems, toSet)
      ∧ rems = (m.filter (fun p => p.2.isNone)).map (fun p => actualKey cfg p.1)
      ∧ (∀ p ∈ toSet, p.2.isSome = true)
      ∧ (∀ p ∈ toSet, ∃ k2 v2, (k2, some v2) ∈ m ∧ p.1 = actualKey cfg k2)
      ∧ (∀ k2 v2, (k2, some v2) ∈ m →
          ∃ c, olookup toSet (actualKey cfg k2) = some (some c))
      ∧ (setBulkOp cfg sec noFaults true h m).res = Except.ok ()
      ∧ (setBulkOp cfg sec noFaults true h m).trace
          = (if rems.isEmpty then [] else [HostCall.remove cfg.area rems])
            ++ (if toSet.isEmpty then [] else [HostCall.set cfg.area toSet]) := by
  rcases buildBulk_total cfg sec hDef m [] [] with ⟨out, hout⟩
  obtain ⟨rems, toSet⟩ := out
  have heq : setBulkOp cfg sec noFaults true h m
      = bulkPhases cfg noFaults rems toSet true h [] := by
    simp [setBulkOp, ensureInit, hout]
  refine ⟨rems, toSet, hout,
    (buildBulk_rems cfg sec m [] [] rems toSet hout).trans (List.nil_append _),
    ?_, ?_, ?_, ?_, ?_⟩
  · exact fun p hp => buildBulk_defined cfg sec hDef m [] [] rems toSet hout
      (fun q hq => absurd hq (List.not_mem_nil q)) p hp
  · intro p hp
    rcases buildBulk_provenance cfg sec m [] [] rems toSet hout p hp with h1 | h1
    · exact absurd h1 (List.not_mem_nil p)
    · exact h1
  · intro k2 v2 hm2
    rcases buildBulk_complete cfg sec m [] [] rems toSet hout k2 v2 hm2 with ⟨w, hw⟩
    have hmem := olookup_mem toSet (actualKey cfg k2) w hw
    have hdefined : w.isSome = true :=
      buildBulk_defined cfg sec hDef m [] [] rems toSet hout
        (fun q hq => absurd hq (List.not_mem_nil q)) (actualKey cfg k2, w) hmem
    rcases Option.isSome_iff_exists.mp hdefined with ⟨c, hc⟩
    refine ⟨c, ?_⟩
    rw [hw, hc]
  · rw [heq]
    exact (bulkPhases_noFaults cfg rems toSet true h []).1
  · rw [heq, (bulkPhases_noFaults cfg rems toSet true h []).2]
    simp

/-- Witness for C4: a concrete bulk call mixing a written entry and a
sentinel entry. -/
theorem c4_witness :
    ∃ rems toSet,
      buildBulk cfgPrefs idSec
          [("theme", some (JsVal.str "dark")), ("volume", none)] [] []
        = Except.ok (rems, toSet)
      ∧ rems = ([("theme", some (JsVal.str "dark")), ("volume", none)].filter
            (fun p => p.2.isNone)).map (fun p => actualKey cfgPrefs p.1)
      ∧ (∀ p ∈ toSet, p.2.isSome = true)
      ∧ (∀ p ∈ toSet, ∃ k2 v2,
            (k2, some v2) ∈ [("theme", some (JsVal.str "dark")), ("volume", none)]
            ∧ p.1 = actualKey cfgPrefs k2)
      ∧ (∀ k2 v2,
            (k2, some v2) ∈ [("theme", some (JsVal.str "dark")), ("volume", none)] →
            ∃ c, olookup toSet (actualKey cfgPrefs k2) = some (some c))
      ∧ (setBulkOp cfgPrefs idSec noFaults true []
            [("theme", some (JsVal.str "dark")), ("volume", none)]).res = Except.ok ()
      ∧ (setBulkOp cfgPrefs idSec noFaults true []
            [("theme", some (JsVal.str "dark")), ("volume", none)]).trace
          = (if rems.isEmpty then [] else [HostCall.remove cfgPrefs.area rems])
            ++ (if toSet.isEmpty then [] else [HostCall.set cfgPrefs.area toSet]) :=
  c4_bulk_set_partitions cfgPrefs idSec []
    [("theme", some (JsVal.str "dark")), ("volume", none)]
    (fun u => ⟨u, rfl⟩)


/-! ### Wire-format key lemmas -/

theorem goodKey_actual (cfg : StoreCfg V) (s : String) (hs : s ∈ actualKeys cfg) :
    goodKey cfg s := by
  rcases List.mem_map.mp hs with ⟨lk, hlk, heq⟩
  exact ⟨lk, hlk, heq.symm⟩

theorem traceGood_append (cfg : StoreCfg V) (t1 t2 : List (HostCall V))
    (h1 : traceGood cfg t1) (h2 : traceGood cfg t2) : traceGood cfg (t1 ++ t2) := by
  intro c hc s hs
  rcases List.mem_append.mp hc with h3 | h3
  · exact h1 c h3 s hs
  · exact h2 c h3 s hs

theorem traceGood_getAll (cfg : StoreCfg V) :
    traceGood cfg [(HostCall.get cfg.area (actualKeys cfg) : HostCall V)] := by
  intro c hc s hs
  rw [List.mem_singleton] at hc
  subst hc
  exact goodKey_actual cfg s hs

theorem traceGood_singleCall (cfg : StoreCfg V) (k : String) (hk : k ∈ storeKeys cfg)
    (c : HostCall V) (hc : callKeys c = [actualKey cfg k]) : traceGood cfg [c] := by
  intro c2 hc2 s hs
  rw [List.mem_singleton] at hc2
  subst hc2
  rw [hc, List.mem_singleton] at hs
  subst hs
  exact ⟨k, hk, rfl⟩

theorem initOp_traceGood (cfg : StoreCfg V) (sec : SecurityModel V E) (f : Faults E)
    (b : Bool) (h : HostData V) : traceGood cfg (initOp cfg sec f b h).trace := by
  cases hg : f.getErr with
  | some e =>
    simp only [initOp, hg]
    exact traceGood_getAll cfg
  | none =>
    cases hempty : (missingKeys cfg h).isEmpty with
    | true =>
      simp [initOp, hg, hempty]
      exact traceGood_getAll cfg
    | false =>
      rcases hb : buildDefaultsToSet cfg sec (missingKeys cfg h) [] with e | toSet
      · simp [initOp, hg, hempty, hb]
        exact traceGood_getAll cfg
      · have hsetGood : traceGood cfg [(HostCall.set cfg.area toSet : HostCall V)] := by
          intro c hc s hs
          rw [List.mem_singleton] at hc
          subst hc
          rcases List.mem_map.mp hs with ⟨p, hp, hps⟩
          rcases buildDefaultsToSet_mem cfg sec (missingKeys cfg h) [] toSet hb p hp
            with h1 | h1
          · exact hps ▸ goodKey_actual cfg p.1 ((mem_missingKeys cfg h p.1).mp h1).1
          · exact absurd h1 (List.not_mem_nil p)
        have hboth : traceGood cfg
            ([HostCall.get cfg.area (actualKeys cfg)] ++ [HostCall.set cfg.area toSet]) :=
          traceGood_append cfg _ _ (traceGood_getAll cfg) hsetGood
        cases hs2 : f.setErr with
        | some e =>
          simp [initOp, hg, hempty, hb, hs2]
          exact hboth
        | none =>
          simp [initOp, hg, hempty, hb, hs2]
          exact hboth

theorem ensureInit_traceGood (cfg : StoreCfg V) (sec : SecurityModel V E) (f : Faults E)
    (b : Bool) (h : HostData V) : traceGood cfg (ensureInit cfg sec f b h).trace := by
  cases b with
  | false => exact initOp_traceGood cfg sec f false h
  | true =>
    intro c hc s hs
    simp [ensureInit] at hc

theorem getOp_traceGood (cfg : StoreCfg V) (sec : SecurityModel V E) (f : Faults E)
    (b : Bool) (h : HostData V) (k : String) (hk : k ∈ storeKeys cfg) :
    traceGood cfg (getOp cfg sec f b h k).trace := by
  have hens := ensureInit_traceGood cfg sec f b h
  have happ : traceGood cfg ((ensureInit cfg sec f b h).trace
      ++ [HostCall.get cfg.area [actualKey cfg k]]) :=
    traceGood_append cfg _ _ hens (traceGood_singleCall cfg k hk _ rfl)
  simp only [getOp]
  repeat' split
  all_goals first | exact hens | exact happ

theorem setKeyOp_traceGood (cfg : StoreCfg V) (sec : SecurityModel V E) (f : Faults E)
    (b : Bool) (h : HostData V) (k : String) (v : Option V) (hk : k ∈ storeKeys cfg) :
    traceGood cfg (setKeyOp cfg sec f b h k v).trace := by
  have hens := ensureInit_traceGood cfg sec f b h
  have happRem : traceGood cfg ((ensureInit cfg sec f b h).trace
      ++ [HostCall.remove cfg.area [actualKey cfg k]]) :=
    traceGood_append cfg _ _ hens (traceGood_singleCall cfg k hk _ rfl)
  simp only [setKeyOp]
  repeat' split
  all_goals first
    | exact hens
    | exact happRem
    | exact traceGood_append cfg _ _ hens (traceGood_singleCall cfg k hk _ rfl)

theorem buildBulk_keysGood (cfg : StoreCfg V) (sec : SecurityModel V E) (m : Obj V)
    (hm : ∀ p ∈ m, p.1 ∈ storeKeys cfg) :
    ∀ rems toSet rems' toSet',
      (∀ s ∈ rems, goodKey cfg s) → (∀ p ∈ toSet, goodKey cfg p.1) →
      buildBulk cfg sec m rems toSet = Except.ok (rems', toSet') →
      (∀ s ∈ rems', goodKey cfg s) ∧ (∀ p ∈ toSet', goodKey cfg p.1) := by
  induction m with
  | nil =>
    intro rems toSet rems' toSet' hr ht hb
    simp only [buildBulk] at hb
    injection hb with hb
    injection hb with h1 h2
    subst h1
    subst h2
    exact ⟨hr, ht⟩
  | cons q rest ih =>
    intro rems toSet rems' toSet' hr ht hb
    obtain ⟨k, v⟩ := q
    have hknext : ∀ p ∈ rest, p.1 ∈ storeKeys cfg :=
      fun p hp => hm p (List.mem_cons_of_mem _ hp)
    have hkk : k ∈ storeKeys cfg := hm (k, v) (List.mem_cons_self _ _)
    cases v with
    | none =>
      refine ih hknext (rems ++ [actualKey cfg k]) toSet rems' toSet' ?_ ht hb
      intro s hs
      rcases List.mem_append.mp hs with h1 | h1
      · exact hr s h1
      · rw [List.mem_singleton] at h1
        subst h1
        exact ⟨k, hkk, rfl⟩
    | some v' =>
      rcases henc : (if cfg.isEncrypted then sec.encrypt (some v')
          else Except.ok (some v')) with e | w
      · simp only [buildBulk, henc] at hb
        exact Except.noConfusion hb
      · simp only [buildBulk, henc] at hb
        refine ih hknext rems (updKey toSet (actualKey cfg k) w) rems' toSet' hr ?_ hb
        intro p hp
        rcases mem_updKey toSet (actualKey cfg k) w p hp with h1 | h1
        · exact ht p h1
        · rw [h1]
          exact ⟨k, hkk, rfl⟩

theorem bulkPhases_traceGood (cfg : StoreCfg V) (f : Faults E) (rems : List String)
    (toSet : Obj V) (b : Bool) (h : HostData V) (tr : List (HostCall V))
    (htr : traceGood cfg tr) (hrems : ∀ s ∈ rems, goodKey cfg s)
    (hts : ∀ p ∈ toSet, goodKey cfg p.1) :
    traceGood cfg (bulkPhases cfg f rems toSet b h tr).trace := by
  have hremCall : traceGood cfg [(HostCall.remove cfg.area rems : HostCall V)] := by
    intro c hc s hs
    rw [List.mem_singleton] at hc
    subst hc
    exact hrems s hs
  have hsetCall : traceGood cfg [(HostCall.set cfg.area toSet : HostCall V)] := by
    intro c hc s hs
    rw [List.mem_singleton] at hc
    subst hc
    rcases List.mem_map.mp hs with ⟨p, hp, hps⟩
    exact hps ▸ hts p hp
  simp only [bulkPhases, bulkSetPhase]
  repeat' split
  all_goals first
    | exact htr
    | exact traceGood_append cfg _ _ htr hsetCall
    | exact traceGood_append cfg _ _ htr hremCall
    | exact traceGood_append cfg _ _ (traceGood_append cfg _ _ htr hremCall) hsetCall

theorem setBulkOp_traceGood (cfg : StoreCfg V) (sec : SecurityModel V E) (f : Faults E)
    (b : Bool) (h : HostData V) (m : Obj V) (hm : ∀ p ∈ m, p.1 ∈ storeKeys cfg) :
    traceGood cfg (setBulkOp cfg sec f b h m).trace := by
  have hens := ensureInit_traceGood cfg sec f b h
  rcases hsr : (ensureInit cfg sec f b h).res with e | u
  · simp only [setBulkOp, hsr]
    exact hens
  · rcases hb : buildBulk cfg sec m [] [] with e | out
    · simp only [setBulkOp, hsr, hb]
      exact hens
    · obtain ⟨rems, toSet⟩ := out
      simp only [setBulkOp, hsr, hb]
      rcases buildBulk_keysGood cfg sec m hm [] [] rems toSet (by simp) (by simp) hb
        with ⟨h1, h2⟩
      exact bulkPhases_traceGood cfg f rems toSet _ _ _ hens h1 h2

theorem allOp_traceGood (cfg : StoreCfg V) (sec : SecurityModel V E) (f : Faults E)
    (b : Bool) (h : HostData V) : traceGood cfg (allOp cfg sec f b h).trace := by
  have hens := ensureInit_traceGood cfg sec f b h
  have happ : traceGood cfg ((ensureInit cfg sec f b h).trace
      ++ [HostCall.get cfg.area (actualKeys cfg)]) :=
    traceGood_append cfg _ _ hens (traceGood_getAll cfg)
  simp only [allOp]
  repeat' split
  all_goals first | exact hens | exact happ

/-- C7: every host call issued by `initialize`, `get`, single- and bulk-form
`set`, or `all` addresses only keys of the literal form
`storeId ++ ":" ++ logicalKey` for logical keys fixed at construction
(given the typing constraint that the requested keys are declared ones);
batched reads and writes restrict to this key list. -/
theorem c7_wire_format (cfg : StoreCfg V) (sec : SecurityModel V E) (f : Faults E)
    (b : Bool) (h : HostData V) (k : String) (v : Option V) (m : Obj V) :
    traceGood cfg (initOp cfg sec f b h).trace
    ∧ (k ∈ storeKeys cfg → traceGood cfg (getOp cfg sec f b h k).trace)
    ∧ (k ∈ storeKeys cfg → traceGood cfg (setKeyOp cfg sec f b h k v).trace)
    ∧ ((∀ p ∈ m, p.1 ∈ storeKeys cfg) → traceGood cfg (setBulkOp cfg sec f b h m).trace)
    ∧ traceGood cfg (allOp cfg sec f b h).trace :=
  ⟨initOp_traceGood cfg sec f b h,
   fun hk => getOp_traceGood cfg sec f b h k hk,
   fun hk => setKeyOp_traceGood cfg sec f b h k v hk,
   fun hm => setBulkOp_traceGood cfg sec f b h m hm,
   allOp_traceGood cfg sec f b h⟩

/-- Witness for C7 on a concrete store and a declared key. -/
theorem c7_witness :
    traceGood cfgPrefs (initOp cfgPrefs idSec noFaults false []).trace
    ∧ traceGood cfgPrefs (getOp cfgPrefs idSec noFaults false [] "theme").trace
    ∧ traceGood cfgPrefs (setBulkOp cfgPrefs idSec noFaults false []
        [("volume", some (JsVal.num 3))]).trace :=
  ⟨(c7_wire_format cfgPrefs idSec noFaults false [] "theme" none
      [("volume", some (JsVal.num 3))]).1,
   (c7_wire_format cfgPrefs idSec noFaults false [] "theme" none
      [("volume", some (JsVal.num 3))]).2.1 (by simp [storeKeys, cfgPrefs]),
   (c7_wire_format cfgPrefs idSec noFaults false [] "theme" none
      [("volume", some (JsVal.num 3))]).2.2.2.1
     (by
       intro p hp
       rw [List.mem_singleton] at hp
       subst hp
       simp [storeKeys, cfgPrefs])⟩

end ChromeStore
